import Mathlib

/-!
# Verification of the repoviewer content-retrieval pipeline

Shallow embedding of the GitHub content/README retrieval and normalization
pipeline of the repoviewer application: directory-listing normalization,
default-branch selection, base64 file decoding, primary-language detection,
markdown image rewriting, the package-manifest homepage probe, the live-page
probe, and the token/error-handling flow.  Each claim about the pipeline is
stated and settled as a theorem over these definitions.
-/

namespace RepoViewer

/-- A git branch as returned by the branches endpoint (`name` + commit sha). -/
structure Branch where
  name : String
  commitSha : String
deriving Repr, DecidableEq

/-- Kind of a repository content entry (`type` field of the listing item). -/
inductive ItemType where
  | file
  | dir
  | symlink
deriving Repr, DecidableEq

/-- One item of a directory listing (`RepoContentItem` in the source). -/
structure RepoContentItem where
  name : String
  path : String
  type : ItemType
  size : Nat
deriving Repr, DecidableEq

/-! ## Directory-listing normalization (`fetchRepoContents`)

The provider returns either a single JSON object (when the path addresses a
file directly) or an array (when it addresses a directory).  The source does
`Array.isArray(contents) ? contents : [contents]`. -/

/-- Shape of the JSON body of a contents fetch: single object or array. -/
inductive ContentsResponse where
  | single (item : RepoContentItem)
  | array (items : List RepoContentItem)
deriving Repr, DecidableEq

/-- The normalization step of `fetchRepoContents`
(`Array.isArray(contents) ? contents : [contents]`). -/
def fetchRepoContentsNormalize : ContentsResponse → List RepoContentItem
  | .single item => [item]
  | .array items => items

/-! ## Default-branch selection (`fetchBranches` in the content viewer)

`data.find(b => b.name === 'main') || data.find(b => b.name === 'master')
 || data[0]`, guarded by `currentBranch === 'main' && data.length > 0`. -/

/-- The branch-selection expression of `fetchBranches`: the entry named
`"main"` if present, else the entry named `"master"`, else the first entry;
`none` (JS `undefined`) on an empty list. -/
def pickDefault (data : List Branch) : Option Branch :=
  ((data.find? (fun b => b.name == "main")).orElse
    (fun _ => data.find? (fun b => b.name == "master"))).orElse
    (fun _ => data.head?)

/-- The guarded state update of `fetchBranches`: the selection only runs when
the current branch is still the initial `"main"` and the list is non-empty. -/
def updateDefaultBranch (current : String) (data : List Branch) : String :=
  if current == "main" && data.length > 0 then
    match pickDefault data with
    | some b => b.name
    | none => current
  else current

/-! ## Live-page probe (`checkRepoContents`)

First probes `contents/index.html`; if that request is not ok, fetches the
root listing and tests
`contents.some(item => item.type === 'file' && item.name.toLowerCase().endsWith('.html'))`. -/

/-- `name.toLowerCase().endsWith('.html')`, on the character list of the
name. -/
def lowerEndsWithHtml (name : String) : Bool :=
  ".html".toList.isSuffixOf (name.toList.map Char.toLower)

/-- `checkRepoContents`, with the two network results as inputs: whether the
`contents/index.html` probe responded ok, and the root listing (`none` when
that fetch failed). -/
def checkRepoContents (indexHtmlOk : Bool)
    (rootListing : Option (List RepoContentItem)) : Bool :=
  if indexHtmlOk then true
  else
    match rootListing with
    | none => false
    | some contents =>
        contents.any (fun item =>
          item.type == ItemType.file && lowerEndsWithHtml item.name)

/-! ## Package-manifest homepage probe (`checkForPackageJson`)

For each branch the probe fetches `contents/package.json?ref=branch`; the
per-branch `try` swallows fetch and parse failures and continues.  On the
first branch whose manifest parses and has a truthy `homepage`, it returns
`content.homepage.trim().replace(backtick-regex, '')` and stops. -/

/-- Outcome of probing one branch's `package.json`: the request failed (or
was not ok), the base64/JSON decode threw, or the manifest parsed with the
given `homepage` field (`none` when the field is absent). -/
inductive BranchOutcome where
  | fetchFailed
  | parseFailed
  | parsed (homepage : Option String)
deriving Repr, DecidableEq

/-- JS `String.prototype.trim` on the character list. -/
def trimChars (cs : List Char) : List Char :=
  ((cs.dropWhile Char.isWhitespace).reverse.dropWhile Char.isWhitespace).reverse

/-- `homepage.trim().replace(/backtick/g, '')`: trim, then drop every literal
backtick character (code point 96). -/
def cleanHomepage (s : String) : String :=
  String.mk ((trimChars s.toList).filter (fun c => c ≠ Char.ofNat 96))

/-- The branch-iteration loop of `checkForPackageJson`: first truthy
homepage wins (JS truthiness of a string field: present and non-empty);
every per-branch failure falls through to the next branch. -/
def checkForPackageJsonIter : List BranchOutcome → Bool × Option String
  | [] => (false, none)
  | BranchOutcome.parsed (some h) :: rest =>
      if h = "" then checkForPackageJsonIter rest
      else (true, some (cleanHomepage h))
  | BranchOutcome.parsed none :: rest => checkForPackageJsonIter rest
  | BranchOutcome.fetchFailed :: rest => checkForPackageJsonIter rest
  | BranchOutcome.parseFailed :: rest => checkForPackageJsonIter rest

/-- Spec-side view of one branch outcome: the homepage the probe would
report for this branch alone. -/
def homepageOf : BranchOutcome → Option String
  | BranchOutcome.parsed (some h) => if h = "" then none else some (cleanHomepage h)
  | _ => none

/-! ## Token store and shared API error handler -/

/-- The two credential locations: the build-time environment variable and
the persisted browser-storage value. -/
structure TokenState where
  env : Option String
  stored : Option String
deriving Repr, DecidableEq

/-- `getGitHubToken`: `envToken || localStorage.getItem('github_token')`. -/
def getGitHubToken (st : TokenState) : Option String :=
  st.env.orElse (fun _ => st.stored)

/-- `setGitHubToken`: `localStorage.setItem('github_token', token)`. -/
def setGitHubToken (token : String) (st : TokenState) : TokenState :=
  { st with stored := some token }

/-- The error object thrown by `handleApiError`:
`GitHub API error: status statusText`. -/
structure ApiError where
  status : Nat
  statusText : String
deriving Repr, DecidableEq

/-- `handleApiError(response)`: on 401/403, clears the persisted token when
any token exists, throws immediately when an environment token exists,
otherwise prompts (`promptResp` is the user's reply) and saves a supplied
token; finally throws unconditionally.  The result is the token state after
the call plus the call's outcome (`Except.error` = the thrown error). -/
def handleApiError (status : Nat) (statusText : String)
    (promptResp : Option String) (st : TokenState) :
    TokenState × Except ApiError Unit :=
  if status == 401 || status == 403 then
    let st1 := if (getGitHubToken st).isSome then { st with stored := none } else st
    if st1.env.isSome then
      (st1, Except.error ⟨status, statusText⟩)
    else
      let st2 := match promptResp with
        | some t => setGitHubToken t st1
        | none => st1
      (st2, Except.error ⟨status, statusText⟩)
  else (st, Except.error ⟨status, statusText⟩)

/-! ## Repository-listing fetch (`fetchUserRepositories`) -/

/-- One provider response to the repository-listing request. -/
structure ListResponse where
  ok : Bool
  status : Nat
  statusText : String
  repos : List String
deriving Repr, DecidableEq

/-- Outcome of `fetchUserRepositories` as the caller observes it. -/
inductive FetchResult where
  | success (repos : List String)
  | thrown (e : ApiError)
deriving Repr, DecidableEq

/-- `fetchUserRepositories`, driven by a script of responses (one per
attempted fetch, each paired with the prompt reply available then).
Returns the final token state, the observed outcome, and the number of
fetches performed.  The source's recursive retry branch
(`if (response.status === 401 || response.status === 403) return
fetchUserRepositories(username)`) is modeled verbatim; it runs only if
`handleApiError` returns without throwing. -/
def fetchUserRepositoriesRun :
    List (ListResponse × Option String) → TokenState →
    TokenState × FetchResult × Nat
  | [], st => (st, FetchResult.thrown ⟨0, "no response"⟩, 0)
  | (resp, promptResp) :: rest, st =>
      if resp.ok then (st, FetchResult.success resp.repos, 1)
      else
        match handleApiError resp.status resp.statusText promptResp st with
        | (st1, Except.error e) => (st1, FetchResult.thrown e, 1)
        | (st1, Except.ok _) =>
            if resp.status == 401 || resp.status == 403 then
              match fetchUserRepositoriesRun rest st1 with
              | (st2, r, n) => (st2, r, n + 1)
            else (st1, FetchResult.success [], 1)

/-! ## Claims C1, C2, C9 -/

/-- C1: for every directory-listing response, when the provider returns a
single object (a file addressed directly) the fetcher returns a one-element
sequence containing exactly that object; when it returns an array, the array
is returned unchanged, in the same order. -/
theorem claim_C1 :
    (∀ item : RepoContentItem,
      fetchRepoContentsNormalize (ContentsResponse.single item) = [item]) ∧
    (∀ items : List RepoContentItem,
      fetchRepoContentsNormalize (ContentsResponse.array items) = items) :=
  ⟨fun _ => rfl, fun _ => rfl⟩

/-- C2: `pickDefault` returns the branch named `"main"` when one is present
regardless of its position; otherwise the branch named `"master"` when
present; otherwise the first element; and on an empty sequence it selects no
branch (the EmptyRepository condition: the selection yields `none`). -/
theorem claim_C2 (data : List Branch) :
    ((∃ b ∈ data, b.name = "main") →
      ∃ b, pickDefault data = some b ∧ b.name = "main") ∧
    ((∀ b ∈ data, b.name ≠ "main") → (∃ b ∈ data, b.name = "master") →
      ∃ b, pickDefault data = some b ∧ b.name = "master") ∧
    ((∀ b ∈ data, b.name ≠ "main" ∧ b.name ≠ "master") →
      pickDefault data = data.head?) ∧
    (data = [] → pickDefault data = none) := by
  refine ⟨?_, ?_, ?_, ?_⟩
  · rintro ⟨b, hb, hname⟩
    have hsome : (data.find? (fun b => b.name == "main")).isSome :=
      List.find?_isSome.2 ⟨b, hb, by simp [hname]⟩
    obtain ⟨c, hc⟩ := Option.isSome_iff_exists.1 hsome
    refine ⟨c, ?_, ?_⟩
    · simp [pickDefault, hc, Option.orElse]
    · have := List.find?_some hc
      simpa using this
  · intro hnomain ⟨b, hb, hname⟩
    have hnone : data.find? (fun b => b.name == "main") = none :=
      List.find?_eq_none.2 (fun x hx => by simp [hnomain x hx])
    have hsome : (data.find? (fun b => b.name == "master")).isSome :=
      List.find?_isSome.2 ⟨b, hb, by simp [hname]⟩
    obtain ⟨c, hc⟩ := Option.isSome_iff_exists.1 hsome
    refine ⟨c, ?_, ?_⟩
    · simp [pickDefault, hnone, hc, Option.orElse]
    · have := List.find?_some hc
      simpa using this
  · intro hnone
    have h1 : data.find? (fun b => b.name == "main") = none :=
      List.find?_eq_none.2 (fun x hx => by simp [(hnone x hx).1])
    have h2 : data.find? (fun b => b.name == "master") = none :=
      List.find?_eq_none.2 (fun x hx => by simp [(hnone x hx).2])
    simp [pickDefault, h1, h2, Option.orElse]
  · rintro rfl
    rfl

/-- Witness for C2 at a concrete input: on `[master, main]` the selection
returns the branch named `"main"` even though it is listed second. -/
theorem claim_C2_witness :
    ∃ b, pickDefault [⟨"master", "s1"⟩, ⟨"main", "s2"⟩] = some b ∧
      b.name = "main" :=
  (claim_C2 [⟨"master", "s1"⟩, ⟨"main", "s2"⟩]).1
    ⟨⟨"main", "s2"⟩, by decide, rfl⟩

/-- C9 counterexample: a root listing whose only entry is a *directory* named
`sub.html`.  Its name ends in `.html` (case-insensitively), so the claim says
`hasLivePage` is true, but `checkRepoContents` requires `type === 'file'` and
returns false. -/
theorem claim_C9_counterexample :
    checkRepoContents false
        (some [{ name := "sub.html", path := "sub.html",
                 type := ItemType.dir, size := 0 }]) = false ∧
      lowerEndsWithHtml "sub.html" = true := by
  constructor
  · rfl
  · rfl

/-- C9 amended: `hasLivePage` is true if the `index.html` probe succeeds;
otherwise it is true exactly when some root-level *file-typed* entry's name
ends in `.html` compared case-insensitively (and false when the root listing
fetch fails). -/
theorem claim_C9 (indexHtmlOk : Bool)
    (rootListing : Option (List RepoContentItem)) :
    checkRepoContents indexHtmlOk rootListing = true ↔
      (indexHtmlOk = true ∨
        ∃ l, rootListing = some l ∧
          ∃ item ∈ l, item.type = ItemType.file ∧
            lowerEndsWithHtml item.name = true) := by
  cases indexHtmlOk with
  | true => simp [checkRepoContents]
  | false =>
    cases rootListing with
    | none => simp [checkRepoContents]
    | some l =>
      simp [checkRepoContents, List.any_eq_true, Bool.and_eq_true,
        beq_iff_eq, and_assoc]

/-! ## Language detection (`detectProgrammingLanguages`)

`file.name.split('.')`, last part lowercased when there are at least two
parts; known extensions mapped through a fixed table; occurrences counted in
a JS object (string keys in insertion order); the `Object.entries` scan
keeps the first entry whose count strictly exceeds the best so far. -/

/-- JS `String.prototype.split('.')` on the character list: split at every
dot, keeping empty parts. -/
def splitOnDot : List Char → List (List Char)
  | [] => [[]]
  | c :: rest =>
      if c = '.' then [] :: splitOnDot rest
      else
        match splitOnDot rest with
        | [] => [[c]]
        | p :: ps => (c :: p) :: ps

/-- The extension-extraction step of the source on the character list:
`parts.length > 1 ? parts[parts.length - 1] : null`. -/
def charExt (cs : List Char) : Option (List Char) :=
  if (splitOnDot cs).length > 1 then some ((splitOnDot cs).getLastD [])
  else none

/-- `extOf`: the source's per-file extension,
`parts[parts.length - 1].toLowerCase()` when the name has at least two
dot-separated parts. -/
def extOf (name : String) : Option String :=
  (charExt name.toList).map (fun s => String.mk (s.map Char.toLower))

/-- Spec-side extraction, following the claim's wording: the suffix after
the *last* `.` of the name (names without a `.` give nothing). -/
def afterLastDot : List Char → Option (List Char)
  | [] => none
  | c :: rest =>
      match afterLastDot rest with
      | some s => some s
      | none => if c = '.' then some rest else none

/-- Spec-side extension: lowercase suffix after the last dot. -/
def specExtOf (name : String) : Option String :=
  (afterLastDot name.toList).map (fun s => String.mk (s.map Char.toLower))

/-- The fixed suffix-to-label table of the source, in source order. -/
def languageMap : List (String × String) :=
  [("py", "Python"), ("js", "JavaScript"), ("ts", "TypeScript"),
   ("jsx", "JavaScript"), ("tsx", "TypeScript"), ("html", "HTML"),
   ("css", "CSS"), ("cpp", "C++"), ("c", "C"), ("h", "C"), ("hpp", "C++"),
   ("java", "Java"), ("rs", "Rust"), ("go", "Golang"), ("rb", "Ruby"),
   ("php", "PHP"), ("cs", "C#"), ("swift", "Swift"), ("kt", "Kotlin")]

/-- `languageMap[ext]`: table lookup, `none` for unknown suffixes. -/
def lookupLanguage (ext : String) : Option String :=
  (languageMap.find? (fun p => p.1 == ext)).map (fun p => p.2)

/-- `languageCounts[language] = (languageCounts[language] || 0) + 1` on an
insertion-ordered association list (JS object string keys iterate in
insertion order). -/
def bumpCount (counts : List (String × Nat)) (lang : String) :
    List (String × Nat) :=
  if counts.any (fun p => p.1 == lang) then
    counts.map (fun p => if p.1 = lang then (p.1, p.2 + 1) else p)
  else counts ++ [(lang, 1)]

/-- The `fileExtensions.forEach` tally loop. -/
def tallyLanguages (langs : List String) : List (String × Nat) :=
  langs.foldl bumpCount []

/-- The `Object.entries(languageCounts).forEach` maximum scan: strict `>`
against the best so far, starting from `('', 0)`. -/
def maxScan (counts : List (String × Nat)) : String :=
  (counts.foldl (fun acc p => if p.2 > acc.2 then p else acc) ("", 0)).1

/-- `detectProgrammingLanguages`, on an already-fetched root listing. -/
def detectProgrammingLanguages (contents : List RepoContentItem) : String :=
  let fileExtensions :=
    (contents.filter (fun item => item.type == ItemType.file)).filterMap
      (fun file => extOf file.name)
  let languageLabels := fileExtensions.filterMap lookupLanguage
  maxScan (tallyLanguages languageLabels)

/-- The distinct elements of a list, in order of first occurrence. -/
def firstOccs (l : List String) : List String :=
  l.foldl (fun acc x => if x ∈ acc then acc else acc ++ [x]) []

/-- Spec-side tally: each label encountered, in first-occurrence order,
paired with its number of occurrences. -/
def specTally (langs : List String) : List (String × Nat) :=
  (firstOccs langs).map (fun lang => (lang, langs.count lang))

/-- The maximum count in a tally (0 for an empty tally). -/
def listMax (counts : List (String × Nat)) : Nat :=
  counts.foldr (fun p m => max p.2 m) 0

/-- Spec-side selection: the first entry whose count attains the maximum
(so ties go to the first-encountered label), empty when there is none. -/
def specSel (counts : List (String × Nat)) : String :=
  ((counts.find? (fun p => p.2 == listMax counts)).map
    (fun p => p.1)).getD ""

/-- Spec-side language detection, following the claim's wording. -/
def specDetect (contents : List RepoContentItem) : String :=
  specSel (specTally
    ((contents.filter (fun item => item.type == ItemType.file)).filterMap
      (fun file => (specExtOf file.name).bind lookupLanguage)))

/-! ### Extension extraction: split-based = last-dot-based -/

theorem splitOnDot_ne_nil (cs : List Char) : splitOnDot cs ≠ [] := by
  cases cs with
  | nil => simp [splitOnDot]
  | cons c rest =>
    by_cases h : c = '.'
    · simp [splitOnDot, h]
    · simp only [splitOnDot, if_neg h]
      cases splitOnDot rest <;> simp

theorem splitOnDot_singleton (cs x : List Char)
    (h : splitOnDot cs = [x]) : x = cs := by
  induction cs generalizing x with
  | nil =>
    simp only [splitOnDot] at h
    injection h with h1 h2
    exact h1.symm
  | cons c rest ih =>
    by_cases hc : c = '.'
    · rw [splitOnDot, if_pos hc] at h
      injection h with h1 h2
      exact absurd h2 (splitOnDot_ne_nil rest)
    · rw [splitOnDot, if_neg hc] at h
      cases hS : splitOnDot rest with
      | nil => exact absurd hS (splitOnDot_ne_nil rest)
      | cons p ps =>
        rw [hS] at h
        injection h with h1 h2
        subst h2
        have hp := ih p hS
        rw [← h1, hp]

theorem getLastD_of_ne_nil {α : Type} (l : List α) (d1 d2 : α)
    (h : l ≠ []) : l.getLastD d1 = l.getLastD d2 := by
  cases l with
  | nil => exact absurd rfl h
  | cons a t => rw [List.getLastD_cons, List.getLastD_cons]

theorem charExt_eq_afterLastDot (cs : List Char) :
    charExt cs = afterLastDot cs := by
  induction cs with
  | nil => rfl
  | cons c rest ih =>
    have hne := splitOnDot_ne_nil rest
    by_cases hc : c = '.'
    · simp only [charExt, afterLastDot, splitOnDot]
      rw [if_pos hc]
      have hlen : ([] :: splitOnDot rest).length > 1 := by
        cases h : splitOnDot rest with
        | nil => exact absurd h hne
        | cons p ps => simp
      rw [if_pos hlen, List.getLastD_cons]
      rw [← ih]
      simp only [charExt]
      by_cases hl : (splitOnDot rest).length > 1
      · rw [if_pos hl]
      · rw [if_neg hl]
        cases h : splitOnDot rest with
        | nil => exact absurd h hne
        | cons p ps =>
          rw [h] at hl
          cases ps with
          | cons q qs => simp at hl
          | nil =>
            have hp : p = rest := splitOnDot_singleton rest p h
            simp [List.getLastD_cons, List.getLastD_nil, hp, hc]
    · simp only [charExt, afterLastDot, splitOnDot]
      rw [if_neg hc]
      rw [← ih]
      simp only [charExt]
      cases hS : splitOnDot rest with
      | nil => exact absurd hS (splitOnDot_ne_nil rest)
      | cons p ps =>
        cases ps with
        | nil => simp [hc]
        | cons q qs =>
          rw [if_pos (by simp), if_pos (by simp)]
          have h1 : ((c :: p) :: q :: qs).getLastD ([] : List Char) =
              (q :: qs).getLastD (c :: p) := List.getLastD_cons _ _ _
          have h2 : (p :: q :: qs).getLastD ([] : List Char) =
              (q :: qs).getLastD p := List.getLastD_cons _ _ _
          rw [h1, h2, getLastD_of_ne_nil (q :: qs) (c :: p) p (by simp)]

theorem extOf_eq_specExtOf : extOf = specExtOf := by
  funext name
  rw [extOf, specExtOf, charExt_eq_afterLastDot]

/-! ### The insertion-ordered tally is the first-occurrence tally -/

theorem mem_firstOccs_foldl (l : List String) :
    ∀ (acc : List String) (y : String),
      (y ∈ l.foldl (fun acc x => if x ∈ acc then acc else acc ++ [x]) acc) ↔
        (y ∈ acc ∨ y ∈ l) := by
  induction l with
  | nil =>
    intro acc y
    simp
  | cons x xs ih =>
    intro acc y
    rw [List.foldl_cons, ih]
    by_cases hx : x ∈ acc
    · rw [if_pos hx]
      constructor
      · rintro (h | h)
        · exact Or.inl h
        · exact Or.inr (List.mem_cons_of_mem _ h)
      · rintro (h | h)
        · exact Or.inl h
        · rcases List.mem_cons.1 h with rfl | h
          · exact Or.inl hx
          · exact Or.inr h
    · rw [if_neg hx]
      simp only [List.mem_append, List.mem_singleton, List.mem_cons]
      tauto

theorem mem_firstOccs (l : List String) (y : String) :
    y ∈ firstOccs l ↔ y ∈ l := by
  have h := mem_firstOccs_foldl l [] y
  simpa [firstOccs] using h

theorem firstOccs_append_single (l : List String) (x : String) :
    firstOccs (l ++ [x]) =
      if x ∈ l then firstOccs l else firstOccs l ++ [x] := by
  unfold firstOccs
  rw [List.foldl_append, List.foldl_cons, List.foldl_nil]
  by_cases hx : x ∈ l
  · rw [if_pos hx, if_pos ((mem_firstOccs_foldl l [] x).2 (Or.inr hx))]
  · rw [if_neg hx, if_neg]
    intro hmem
    rcases (mem_firstOccs_foldl l [] x).1 hmem with h | h
    · simp at h
    · exact hx h

theorem bump_specTally (processed : List String) (x : String) :
    bumpCount (specTally processed) x = specTally (processed ++ [x]) := by
  by_cases hx : x ∈ processed
  · have hany : (specTally processed).any (fun p => p.1 == x) = true := by
      rw [List.any_eq_true]
      exact ⟨(x, processed.count x),
        List.mem_map.2 ⟨x, (mem_firstOccs processed x).2 hx, rfl⟩, by simp⟩
    rw [bumpCount, if_pos hany]
    simp only [specTally, firstOccs_append_single, if_pos hx, List.map_map]
    apply List.map_congr_left
    intro lang hlang
    by_cases hl : lang = x
    · subst hl
      simp [Function.comp, List.count_append, List.count_cons, List.count_nil]
    · simp [Function.comp, List.count_append, List.count_cons,
        List.count_nil, hl]
  · have hany : (specTally processed).any (fun p => p.1 == x) = false := by
      rw [List.any_eq_false]
      intro p hp
      obtain ⟨lang, hlang, rfl⟩ := List.mem_map.1 hp
      have hmem : lang ∈ processed := (mem_firstOccs processed lang).1 hlang
      have hne : lang ≠ x := fun h => hx (h ▸ hmem)
      simp [hne]
    rw [bumpCount, if_neg (by simp [hany])]
    simp only [specTally, firstOccs_append_single, if_neg hx, List.map_append]
    congr 1
    · apply List.map_congr_left
      intro lang hlang
      have hmem : lang ∈ processed := (mem_firstOccs processed lang).1 hlang
      have hne : lang ≠ x := fun h => hx (h ▸ hmem)
      simp [List.count_append, List.count_cons, List.count_nil, hne]
    · simp [List.count_append, List.count_cons, List.count_nil,
        List.count_eq_zero_of_not_mem hx]

theorem tallyLanguages_eq_specTally (langs : List String) :
    tallyLanguages langs = specTally langs := by
  have main : ∀ (rest processed : List String),
      List.foldl bumpCount (specTally processed) rest =
        specTally (processed ++ rest) := by
    intro rest
    induction rest with
    | nil =>
      intro processed
      simp
    | cons x xs ih =>
      intro processed
      rw [List.foldl_cons, bump_specTally, ih]
      simp [List.append_assoc]
  have h := main langs []
  simpa [tallyLanguages, specTally, firstOccs] using h

/-! ### The strict-greater scan picks the first maximal entry -/

theorem listMax_attained (l : List (String × Nat)) (h : l ≠ []) :
    ∃ p ∈ l, p.2 = listMax l := by
  induction l with
  | nil => exact absurd rfl h
  | cons p t ih =>
    have hcons : listMax (p :: t) = max p.2 (listMax t) := rfl
    rcases le_total (listMax t) p.2 with hle | hle
    · exact ⟨p, List.mem_cons_self p t, by rw [hcons, max_eq_left hle]⟩
    · cases t with
      | nil =>
        exact ⟨p, List.mem_cons_self p [], by simp [listMax]⟩
      | cons q ts =>
        obtain ⟨r, hr, hrmax⟩ := ih (by simp)
        exact ⟨r, List.mem_cons_of_mem p hr,
          by rw [hcons, max_eq_right hle, hrmax]⟩

theorem maxScan_fold (l : List (String × Nat)) :
    ∀ acc : String × Nat,
      l.foldl (fun a p => if p.2 > a.2 then p else a) acc =
        ((acc :: l).find? (fun r => r.2 == listMax (acc :: l))).getD acc := by
  induction l with
  | nil =>
    intro acc
    have hM : listMax [acc] = acc.2 := by simp [listMax]
    rw [List.foldl_nil, hM]
    rw [List.find?_cons_of_pos _ (by simp)]
    rfl
  | cons p t ih =>
    intro acc
    rw [List.foldl_cons, ih]
    have hacc2 : (if p.2 > acc.2 then p else acc).2 = max acc.2 p.2 := by
      by_cases h : p.2 > acc.2
      · rw [if_pos h, max_eq_right (le_of_lt h)]
      · rw [if_neg h, max_eq_left (le_of_not_lt h)]
    have hM : listMax ((if p.2 > acc.2 then p else acc) :: t) =
        listMax (acc :: p :: t) := by
      show max (if p.2 > acc.2 then p else acc).2 (listMax t) =
        max acc.2 (max p.2 (listMax t))
      rw [hacc2, Nat.max_assoc]
    rw [hM]
    by_cases hgt : p.2 > acc.2
    · simp only [if_pos hgt]
      have hMval : listMax (acc :: p :: t) = listMax (p :: t) := by
        show max acc.2 (listMax (p :: t)) = listMax (p :: t)
        exact max_eq_right (le_trans (le_of_lt hgt) (le_max_left _ _))
      have haccP : ¬ acc.2 = listMax (acc :: p :: t) := by
        rw [hMval]
        have hlt : acc.2 < listMax (p :: t) :=
          lt_of_lt_of_le hgt (le_max_left _ _)
        omega
      conv_rhs => rw [List.find?_cons_of_neg _ (by simp; exact haccP)]
      obtain ⟨r, hr, hrmax⟩ := listMax_attained (p :: t) (by simp)
      have hsome : ((p :: t).find?
          (fun r => r.2 == listMax (acc :: p :: t))).isSome := by
        rw [List.find?_isSome]
        exact ⟨r, hr, by rw [hMval]; simp [hrmax]⟩
      obtain ⟨q, hq⟩ := Option.isSome_iff_exists.1 hsome
      rw [hq]
      rfl
    · simp only [if_neg hgt]
      by_cases hacc : acc.2 = listMax (acc :: p :: t)
      · rw [List.find?_cons_of_pos _ (by simp [hacc])]
        conv_rhs => rw [List.find?_cons_of_pos _ (by simp [hacc])]
      · have hplt : p.2 < listMax (acc :: p :: t) :=
          lt_of_le_of_lt (le_of_not_lt hgt)
            (lt_of_le_of_ne (le_max_left _ _) hacc)
        have e1 : List.find? (fun r => r.2 == listMax (acc :: p :: t))
              (acc :: t) =
            List.find? (fun r => r.2 == listMax (acc :: p :: t)) t :=
          List.find?_cons_of_neg _ (by simp; exact hacc)
        have e2 : List.find? (fun r => r.2 == listMax (acc :: p :: t))
              (acc :: p :: t) =
            List.find? (fun r => r.2 == listMax (acc :: p :: t)) (p :: t) :=
          List.find?_cons_of_neg _ (by simp; exact hacc)
        have e3 : List.find? (fun r => r.2 == listMax (acc :: p :: t))
              (p :: t) =
            List.find? (fun r => r.2 == listMax (acc :: p :: t)) t :=
          List.find?_cons_of_neg _ (by simp; omega)
        rw [e1, e2, e3]

theorem maxScan_eq_specSel (counts : List (String × Nat))
    (hpos : ∀ p ∈ counts, 1 ≤ p.2) :
    maxScan counts = specSel counts := by
  cases counts with
  | nil => rfl
  | cons p t =>
    rw [maxScan, maxScan_fold, specSel]
    have hM : listMax (("", 0) :: p :: t) = listMax (p :: t) := by
      show max 0 (listMax (p :: t)) = listMax (p :: t)
      exact Nat.zero_max _
    obtain ⟨r, hr, hrmax⟩ := listMax_attained (p :: t) (by simp)
    have hMpos : 1 ≤ listMax (p :: t) := hrmax ▸ hpos r hr
    simp only [hM]
    rw [List.find?_cons_of_neg _ (by simp; omega)]
    have hsome : ((p :: t).find?
        (fun r => r.2 == listMax (p :: t))).isSome := by
      rw [List.find?_isSome]
      exact ⟨r, hr, by simp [hrmax]⟩
    obtain ⟨q, hq⟩ := Option.isSome_iff_exists.1 hsome
    rw [hq]
    rfl

theorem specTally_pos (langs : List String) :
    ∀ p ∈ specTally langs, 1 ≤ p.2 := by
  intro p hp
  obtain ⟨lang, hlang, rfl⟩ := List.mem_map.1 hp
  have hmem : lang ∈ langs := (mem_firstOccs langs lang).1 hlang
  simpa using List.count_pos_iff.2 hmem

/-- C4: `detectPrimaryLanguage` takes the lowercase suffix after the last
`.` of each file-typed entry's name (entries without a `.` ignored), maps
known suffixes through the fixed table, tallies them, and returns the label
with the strictly highest count, ties broken by first-encountered order; the
empty label when no file matches — proved as equality with the spec-side
`specDetect`, plus the claim's three concrete examples. -/
theorem claim_C4 :
    (∀ contents : List RepoContentItem,
      detectProgrammingLanguages contents = specDetect contents) ∧
    detectProgrammingLanguages
        [⟨"a.py", "a.py", ItemType.file, 0⟩,
         ⟨"b.py", "b.py", ItemType.file, 0⟩,
         ⟨"c.js", "c.js", ItemType.file, 0⟩] = "Python" ∧
    detectProgrammingLanguages [⟨"a.xyz", "a.xyz", ItemType.file, 0⟩] = "" ∧
    detectProgrammingLanguages ([] : List RepoContentItem) = "" := by
  refine ⟨?_, by rfl, by rfl, by rfl⟩
  intro contents
  unfold detectProgrammingLanguages specDetect
  simp only [extOf_eq_specExtOf, List.filterMap_filterMap]
  rw [tallyLanguages_eq_specTally]
  exact maxScan_eq_specSel _ (specTally_pos _)

/-! ## Base64 decode step of `fetchFileContent`

When the metadata says `encoding === 'base64'`, the source decodes with
`atob(data.content.replace(/\n/g, ''))`: newlines are stripped from the
encoded payload, then the remainder is base64-decoded. -/

/-- The base64 alphabet, indices 0 to 63. -/
def b64Alphabet : List Char :=
  "ABCDEFGHIJKLMNOPQRSTUVWXYZabcdefghijklmnopqrstuvwxyz0123456789+/".toList

/-- Character of a 6-bit group. -/
def b64Char (i : Nat) : Char := b64Alphabet.getD i 'A'

/-- Index of a base64 character (`none` outside the alphabet). -/
def b64Index (c : Char) : Option Nat :=
  b64Alphabet.findIdx? (fun d => d == c)

/-- Standard base64 encoding of a byte sequence (with `=` padding), as the
provider produces for embedded file content. -/
def base64Encode : List Nat → List Char
  | [] => []
  | [a] => [b64Char (a / 4), b64Char (a % 4 * 16), '=', '=']
  | [a, b] => [b64Char (a / 4), b64Char (a % 4 * 16 + b / 16),
      b64Char (b % 16 * 4), '=']
  | a :: b :: c :: rest =>
      b64Char (a / 4) :: b64Char (a % 4 * 16 + b / 16) ::
      b64Char (b % 16 * 4 + c / 64) :: b64Char (c % 64) ::
      base64Encode rest

/-- JS `atob` on the character list: four characters per quantum, `=`
padding allowed only in a final quantum; `none` (the JS
`InvalidCharacterError`) on characters outside the alphabet or a malformed
length. -/
def atobDecode : List Char → Option (List Nat)
  | [] => some []
  | c1 :: c2 :: c3 :: c4 :: rest =>
      match b64Index c1, b64Index c2 with
      | some i1, some i2 =>
          if c3 = '=' then
            if c4 = '=' ∧ rest = [] then some [i1 * 4 + i2 / 16] else none
          else
            match b64Index c3 with
            | some i3 =>
                if c4 = '=' then
                  if rest = [] then
                    some [i1 * 4 + i2 / 16, i2 % 16 * 16 + i3 / 4]
                  else none
                else
                  match b64Index c4 with
                  | some i4 =>
                      (atobDecode rest).map
                        (fun bs => (i1 * 4 + i2 / 16) ::
                          (i2 % 16 * 16 + i3 / 4) :: (i3 % 4 * 64 + i4) :: bs)
                  | none => none
            | none => none
      | _, _ => none
  | _ => none

/-- `content.replace(/\n/g, '')`. -/
def stripNewlines (cs : List Char) : List Char :=
  cs.filter (fun c => c ≠ '\n')

/-- The base64 decode step of `fetchFileContent`:
`atob(data.content.replace(/\n/g, ''))`. -/
def fileDecodeStep (content : List Char) : Option (List Nat) :=
  atobDecode (stripNewlines content)

theorem b64Index_b64Char : ∀ i < 64, b64Index (b64Char i) = some i := by
  decide

theorem b64Char_ne_pad : ∀ i < 64, b64Char i ≠ '=' := by
  decide

theorem atobDecode_base64Encode :
    ∀ bs : List Nat, (∀ b ∈ bs, b < 256) →
      atobDecode (base64Encode bs) = some bs
  | [], _ => rfl
  | [a], h => by
    have ha : a < 256 := h a (by simp)
    have h1 : a / 4 < 64 := by omega
    have h2 : a % 4 * 16 < 64 := by omega
    have e1 : a / 4 * 4 + a % 4 * 16 / 16 = a := by omega
    simp only [base64Encode, atobDecode,
      b64Index_b64Char _ h1, b64Index_b64Char _ h2]
    simp
    omega
  | [a, b], h => by
    have ha : a < 256 := h a (by simp)
    have hb : b < 256 := h b (by simp)
    have h1 : a / 4 < 64 := by omega
    have h2 : a % 4 * 16 + b / 16 < 64 := by omega
    have h3 : b % 16 * 4 < 64 := by omega
    have hne3 : b64Char (b % 16 * 4) ≠ '=' := b64Char_ne_pad _ h3
    have e1 : a / 4 * 4 + (a % 4 * 16 + b / 16) / 16 = a := by omega
    have e2 : (a % 4 * 16 + b / 16) % 16 * 16 + b % 16 * 4 / 4 = b := by
      omega
    simp only [base64Encode, atobDecode,
      b64Index_b64Char _ h1, b64Index_b64Char _ h2, b64Index_b64Char _ h3]
    simp [hne3]
    omega
  | a :: b :: c :: rest, h => by
    have ha : a < 256 := h a (by simp)
    have hb : b < 256 := h b (by simp)
    have hc : c < 256 := h c (by simp)
    have h1 : a / 4 < 64 := by omega
    have h2 : a % 4 * 16 + b / 16 < 64 := by omega
    have h3 : b % 16 * 4 + c / 64 < 64 := by omega
    have h4 : c % 64 < 64 := by omega
    have hne3 : b64Char (b % 16 * 4 + c / 64) ≠ '=' := b64Char_ne_pad _ h3
    have hne4 : b64Char (c % 64) ≠ '=' := b64Char_ne_pad _ h4
    have e1 : a / 4 * 4 + (a % 4 * 16 + b / 16) / 16 = a := by omega
    have e2 : (a % 4 * 16 + b / 16) % 16 * 16 +
        (b % 16 * 4 + c / 64) / 4 = b := by omega
    have e3 : (b % 16 * 4 + c / 64) % 4 * 64 + c % 64 = c := by omega
    have ih := atobDecode_base64Encode rest
      (fun x hx => h x (List.mem_cons_of_mem _
        (List.mem_cons_of_mem _ (List.mem_cons_of_mem _ hx))))
    simp only [base64Encode, atobDecode,
      b64Index_b64Char _ h1, b64Index_b64Char _ h2,
      b64Index_b64Char _ h3, b64Index_b64Char _ h4]
    simp [hne3, hne4, ih]
    omega

/-- C3: for every byte sequence, base64-encoding it — possibly with
newlines embedded anywhere in the encoded text — and passing the result
through the decode step of `getFile` yields back the original bytes
exactly: the newlines are stripped before decoding and never treated as
payload data.  (`stripNewlines content = base64Encode bs` says precisely
that `content` is the encoding with newlines inserted.) -/
theorem claim_C3 (bs : List Nat) (content : List Char)
    (hbytes : ∀ b ∈ bs, b < 256)
    (henc : stripNewlines content = base64Encode bs) :
    fileDecodeStep content = some bs := by
  rw [fileDecodeStep, henc, atobDecode_base64Encode bs hbytes]

/-- Witness for C3 at a concrete input: the bytes of `"Hi!"` encode to
`"SGkh"`; with a newline embedded (`"SG\nkh"`) the decode step still
returns exactly the original bytes. -/
theorem claim_C3_witness :
    fileDecodeStep "SG\nkh".toList = some [72, 105, 33] :=
  claim_C3 [72, 105, 33] "SG\nkh".toList (by decide) (by decide)

/-! ## Markdown image rewriting (`processMarkdownContent`)

`content.replace(/!\[([^\]]*)\]\((?!http)([^)]*)\)/g, replacement)` with the
replacement
`![$1](https://raw.githubusercontent.com/user/repo/branch/$2)`: a
left-to-right scan; at each position the pattern `![`, an alt text free of
`]`, `](`, a negative `http` lookahead, a path free of `)`, and `)`;
non-matching positions pass through unchanged. -/

/-- Split at the first occurrence of `k`: the prefix before it and the
remainder after it; `none` when `k` does not occur.  This is the
backtracking-free behavior of `[^X]*` followed by the literal `X`. -/
def splitUntil (k : Char) : List Char → Option (List Char × List Char)
  | [] => none
  | c :: rest =>
      if c = k then some ([], rest)
      else
        match splitUntil k rest with
        | some (before, after) => some (c :: before, after)
        | none => none

/-- The negative lookahead `(?!http)`: does the text start with `http`? -/
def startsWithHttp (cs : List Char) : Bool :=
  "http".toList.isPrefixOf cs

/-- One match attempt of the image regex at the head of the input: on
success, the alt text, the path, and the rest of the input after the
closing parenthesis. -/
def tryMatch : List Char → Option (List Char × List Char × List Char)
  | c1 :: c2 :: rest =>
      if c1 = '!' ∧ c2 = '[' then
        match splitUntil ']' rest with
        | some (alt, rest2) =>
            match rest2 with
            | c3 :: rest3 =>
                if c3 = '(' then
                  if startsWithHttp rest3 then none
                  else
                    match splitUntil ')' rest3 with
                    | some (path, rest4) => some (alt, path, rest4)
                    | none => none
                else none
            | [] => none
        | none => none
      else none
  | _ => none

/-- The replacement text
`![$1](https://raw.githubusercontent.com/user/repo/branch/$2)`. -/
def rewriteImage (user repo branch alt path : List Char) : List Char :=
  "![".toList ++ alt ++ "](https://raw.githubusercontent.com/".toList ++
    user ++ "/".toList ++ repo ++ "/".toList ++ branch ++ "/".toList ++
    path ++ ")".toList

/-- The global-replace scan with explicit fuel; every step consumes at
least one input character, so `input.length` fuel is enough. -/
def processMDFuel (user repo branch : List Char) :
    Nat → List Char → List Char
  | 0, cs => cs
  | _ + 1, [] => []
  | fuel + 1, c :: cs =>
      match tryMatch (c :: cs) with
      | some (alt, path, rest) =>
          rewriteImage user repo branch alt path ++
            processMDFuel user repo branch fuel rest
      | none => c :: processMDFuel user repo branch fuel cs

/-- `processMarkdownContent`: rewrite every relative (non-`http`) image
reference to the absolute raw-content URL of the coordinate and branch. -/
def processMarkdownContent (user repo branch content : List Char) :
    List Char :=
  processMDFuel user repo branch content.length content

/-- A markdown body split into segments: inert text (no `!`), a relative
image reference, or an absolute (`http`-prefixed) image reference. -/
inductive MDSeg where
  | inert (t : List Char)
  | rel (alt path : List Char)
  | abs (alt path : List Char)

/-- The literal text of a segment. -/
def MDSeg.text : MDSeg → List Char
  | .inert t => t
  | .rel alt path => '!' :: '[' :: alt ++ ']' :: '(' :: path ++ [')']
  | .abs alt path => '!' :: '[' :: alt ++ ']' :: '(' :: path ++ [')']

/-- Well-formedness of a segment: inert text holds no `!`; an alt text
holds no `]` and a path no `)` (as the regex character classes demand); a
relative path fails the `http` lookahead and an absolute path passes it
(and, for absolute references, no stray `!` inside, so no later match can
start inside them). -/
def MDSeg.WF : MDSeg → Prop
  | .inert t => '!' ∉ t
  | .rel alt path => ']' ∉ alt ∧ ')' ∉ path ∧
      startsWithHttp (path ++ [')']) = false
  | .abs alt path => ']' ∉ alt ∧ '!' ∉ alt ∧ '!' ∉ path ∧
      startsWithHttp (path ++ [')']) = true

instance (s : MDSeg) : Decidable s.WF :=
  match s with
  | .inert t => inferInstanceAs (Decidable ('!' ∉ t))
  | .rel alt path => inferInstanceAs (Decidable (']' ∉ alt ∧ ')' ∉ path ∧
      startsWithHttp (path ++ [')']) = false))
  | .abs alt path => inferInstanceAs (Decidable (']' ∉ alt ∧ '!' ∉ alt ∧
      '!' ∉ path ∧ startsWithHttp (path ++ [')']) = true))

/-- What the rewrite produces for a segment: relative references become
absolute raw-content URLs; everything else is untouched. -/
def MDSeg.out (user repo branch : List Char) : MDSeg → List Char
  | .inert t => t
  | .rel alt path => rewriteImage user repo branch alt path
  | .abs alt path => MDSeg.text (.abs alt path)

/-- The concatenated text of a segment list. -/
def segsText (segs : List MDSeg) : List Char :=
  segs.foldr (fun s acc => s.text ++ acc) []

/-- The concatenated rewritten output of a segment list. -/
def segsOut (user repo branch : List Char) (segs : List MDSeg) :
    List Char :=
  segs.foldr (fun s acc => s.out user repo branch ++ acc) []

/-! ### Matcher lemmas -/

theorem splitUntil_append (k : Char) (pre post : List Char) (h : k ∉ pre) :
    splitUntil k (pre ++ k :: post) = some (pre, post) := by
  induction pre with
  | nil => simp [splitUntil]
  | cons c pc ih =>
    have hck : ¬ c = k := fun hh => h (hh ▸ List.mem_cons_self c pc)
    have hk : k ∉ pc := fun hh => h (List.mem_cons_of_mem _ hh)
    simp [splitUntil, hck, ih hk]

theorem isPrefixOf_append_paren :
    ∀ (pat path rest : List Char), ')' ∉ pat →
      pat.isPrefixOf (path ++ ')' :: rest) = pat.isPrefixOf (path ++ [')'])
  | [], path, rest, _ => by simp
  | a :: pt, [], rest, h => by
      have ha : (a == ')') = false := by
        simp only [beq_eq_false_iff_ne, ne_eq]
        exact fun hh => h (hh ▸ List.mem_cons_self a pt)
      simp [List.isPrefixOf, ha]
  | a :: pt, c :: pc, rest, h => by
      have hpt : ')' ∉ pt := fun hh => h (List.mem_cons_of_mem _ hh)
      simp [List.isPrefixOf, isPrefixOf_append_paren pt pc rest hpt]

theorem startsWithHttp_append_paren (path rest : List Char) :
    startsWithHttp (path ++ ')' :: rest) = startsWithHttp (path ++ [')']) :=
  isPrefixOf_append_paren _ path rest (by decide)

theorem tryMatch_not_bang (c : Char) (cs : List Char) (h : ¬ c = '!') :
    tryMatch (c :: cs) = none := by
  cases cs with
  | nil => rfl
  | cons c2 rest => simp [tryMatch, h]

theorem tryMatch_rel_full (alt path rest : List Char)
    (halt : ']' ∉ alt) (hpath : ')' ∉ path)
    (hhttp : startsWithHttp (path ++ ')' :: rest) = false) :
    tryMatch ('!' :: '[' :: (alt ++ ']' :: '(' :: (path ++ ')' :: rest))) =
      some (alt, path, rest) := by
  have h1 := splitUntil_append ']' alt ('(' :: (path ++ ')' :: rest)) halt
  have h2 := splitUntil_append ')' path rest hpath
  simp [tryMatch, h1, h2, hhttp]

theorem tryMatch_abs_full (alt path rest : List Char)
    (halt : ']' ∉ alt)
    (hhttp : startsWithHttp (path ++ ')' :: rest) = true) :
    tryMatch ('!' :: '[' :: (alt ++ ']' :: '(' :: (path ++ ')' :: rest))) =
      none := by
  have h1 := splitUntil_append ']' alt ('(' :: (path ++ ')' :: rest)) halt
  simp [tryMatch, h1, hhttp]

/-! ### Scan traversal lemmas -/

theorem processMDFuel_inert (user repo branch : List Char) :
    ∀ (t : List Char) (fuel : Nat) (cs : List Char),
      '!' ∉ t → (t ++ cs).length ≤ fuel →
      processMDFuel user repo branch fuel (t ++ cs) =
        t ++ processMDFuel user repo branch (fuel - t.length) cs
  | [], fuel, cs, _, _ => by simp
  | c :: tc, fuel, cs, h, hlen => by
      cases fuel with
      | zero => simp at hlen
      | succ n =>
        have hc : ¬ c = '!' := fun hh => h (hh ▸ List.mem_cons_self c tc)
        have ht : '!' ∉ tc := fun hh => h (List.mem_cons_of_mem _ hh)
        have hlen' : (tc ++ cs).length ≤ n := by
          simp only [List.cons_append, List.length_cons] at hlen
          omega
        simp only [List.cons_append, processMDFuel, List.append_eq,
          tryMatch_not_bang c (tc ++ cs) hc, List.length_cons,
          Nat.succ_sub_succ]
        rw [processMDFuel_inert user repo branch tc n cs ht hlen']

theorem processMDFuel_rel (user repo branch : List Char)
    (alt path : List Char) (fuel : Nat) (cs : List Char)
    (halt : ']' ∉ alt) (hpath : ')' ∉ path)
    (hhttp : startsWithHttp (path ++ [')']) = false) :
    processMDFuel user repo branch (fuel + 1)
        (('!' :: '[' :: alt ++ ']' :: '(' :: path ++ [')']) ++ cs) =
      rewriteImage user repo branch alt path ++
        processMDFuel user repo branch fuel cs := by
  have hhttp' : startsWithHttp (path ++ ')' :: cs) = false := by
    rw [startsWithHttp_append_paren]
    exact hhttp
  have hassoc : ('!' :: '[' :: alt ++ ']' :: '(' :: path ++ [')']) ++ cs =
      '!' :: '[' :: (alt ++ ']' :: '(' :: (path ++ ')' :: cs)) := by
    simp
  rw [hassoc]
  simp only [processMDFuel, tryMatch_rel_full alt path cs halt hpath hhttp']

theorem processMDFuel_abs (user repo branch : List Char)
    (alt path : List Char) (fuel : Nat) (cs : List Char)
    (halt : ']' ∉ alt) (hbalt : '!' ∉ alt) (hbpath : '!' ∉ path)
    (hhttp : startsWithHttp (path ++ [')']) = true)
    (hlen : (('!' :: '[' :: alt ++ ']' :: '(' :: path ++ [')']) ++
      cs).length ≤ fuel + 1) :
    processMDFuel user repo branch (fuel + 1)
        (('!' :: '[' :: alt ++ ']' :: '(' :: path ++ [')']) ++ cs) =
      ('!' :: '[' :: alt ++ ']' :: '(' :: path ++ [')']) ++
        processMDFuel user repo branch
          (fuel + 1 -
            ('!' :: '[' :: alt ++ ']' :: '(' :: path ++ [')']).length)
          cs := by
  have hhttp' : startsWithHttp (path ++ ')' :: cs) = true := by
    rw [startsWithHttp_append_paren]
    exact hhttp
  have hassoc : ('!' :: '[' :: alt ++ ']' :: '(' :: path ++ [')']) ++ cs =
      '!' :: '[' :: (alt ++ ']' :: '(' :: (path ++ ')' :: cs)) := by
    simp
  have hinert : '!' ∉ ('[' :: alt ++ ']' :: '(' :: path ++ [')']) := by
    intro hmem
    rcases List.mem_cons.1 hmem with h | hmem2
    · exact absurd h (by decide)
    · rcases List.mem_append.1 hmem2 with hmem3 | h
      · rcases List.mem_append.1 hmem3 with h | hmem4
        · exact hbalt h
        · rcases List.mem_cons.1 hmem4 with h | hmem5
          · exact absurd h (by decide)
          · rcases List.mem_cons.1 hmem5 with h | h
            · exact absurd h (by decide)
            · exact hbpath h
      · exact absurd (List.mem_singleton.1 h) (by decide)
  have hlen' : (('[' :: alt ++ ']' :: '(' :: path ++ [')']) ++ cs).length ≤
      fuel := by
    simp only [List.cons_append, List.length_cons,
      List.length_append] at hlen ⊢
    omega
  have hTassoc : ('[' :: alt ++ ']' :: '(' :: path ++ [')']) ++ cs =
      '[' :: (alt ++ ']' :: '(' :: (path ++ ')' :: cs)) := by
    simp
  rw [hassoc]
  simp only [processMDFuel, tryMatch_abs_full alt path cs halt hhttp']
  rw [← hTassoc,
    processMDFuel_inert user repo branch _ fuel cs hinert hlen']
  simp [Nat.succ_sub_succ]

/-- The scan over a well-formed segment decomposition: each segment maps to
its rewritten output, in order. -/
theorem processMDFuel_segs (user repo branch : List Char) :
    ∀ (segs : List MDSeg) (fuel : Nat),
      (∀ s ∈ segs, s.WF) → (segsText segs).length ≤ fuel →
      processMDFuel user repo branch fuel (segsText segs) =
        segsOut user repo branch segs
  | [], fuel, _, _ => by cases fuel <;> rfl
  | MDSeg.inert t :: segs', fuel, hwf, hlen => by
      have ht : '!' ∉ t := hwf _ (List.mem_cons_self _ _)
      have hwf' : ∀ s ∈ segs', s.WF :=
        fun s hs => hwf s (List.mem_cons_of_mem _ hs)
      have htext : segsText (MDSeg.inert t :: segs') =
          t ++ segsText segs' := rfl
      rw [htext] at hlen ⊢
      rw [processMDFuel_inert user repo branch t fuel (segsText segs') ht
        hlen]
      have hlen' : (segsText segs').length ≤ fuel - t.length := by
        simp only [List.length_append] at hlen
        omega
      rw [processMDFuel_segs user repo branch segs' (fuel - t.length) hwf' hlen']
      rfl
  | MDSeg.rel alt path :: segs', fuel, hwf, hlen => by
      obtain ⟨halt, hpath, hhttp⟩ := hwf _ (List.mem_cons_self _ _)
      have hwf' : ∀ s ∈ segs', s.WF :=
        fun s hs => hwf s (List.mem_cons_of_mem _ hs)
      have htext : segsText (MDSeg.rel alt path :: segs') =
          ('!' :: '[' :: alt ++ ']' :: '(' :: path ++ [')']) ++
            segsText segs' := rfl
      rw [htext] at hlen ⊢
      cases fuel with
      | zero => simp at hlen
      | succ f =>
        rw [processMDFuel_rel user repo branch alt path f (segsText segs')
          halt hpath hhttp]
        have hlen' : (segsText segs').length ≤ f := by
          simp only [List.cons_append, List.length_cons,
            List.length_append] at hlen
          omega
        rw [processMDFuel_segs user repo branch segs' f hwf' hlen']
        rfl
  | MDSeg.abs alt path :: segs', fuel, hwf, hlen => by
      obtain ⟨halt, hbalt, hbpath, hhttp⟩ := hwf _ (List.mem_cons_self _ _)
      have hwf' : ∀ s ∈ segs', s.WF :=
        fun s hs => hwf s (List.mem_cons_of_mem _ hs)
      have htext : segsText (MDSeg.abs alt path :: segs') =
          ('!' :: '[' :: alt ++ ']' :: '(' :: path ++ [')']) ++
            segsText segs' := rfl
      rw [htext] at hlen ⊢
      cases fuel with
      | zero => simp at hlen
      | succ f =>
        rw [processMDFuel_abs user repo branch alt path f (segsText segs')
          halt hbalt hbpath hhttp hlen]
        have hlen' : (segsText segs').length ≤
            f + 1 - ('!' :: '[' :: alt ++ ']' :: '(' ::
              path ++ [')']).length := by
          simp only [List.cons_append, List.length_cons,
            List.length_append] at hlen ⊢
          omega
        rw [processMDFuel_segs user repo branch segs'
          (f + 1 - ('!' :: '[' :: alt ++ ']' :: '(' ::
            path ++ [')']).length) hwf' hlen']
        rfl

/-- C5: for every markdown body given as a well-formed segment
decomposition, every coordinate `(user, repo)` and every ref `branch`, the
rewrite maps each relative image reference `![alt](path)` (path not
starting with `http`) to
`![alt](https://raw.githubusercontent.com/user/repo/branch/path)` and
leaves inert text and every `http`-prefixed image reference unchanged, in
order. -/
theorem claim_C5 (user repo branch : List Char) (segs : List MDSeg)
    (hwf : ∀ s ∈ segs, s.WF) :
    processMarkdownContent user repo branch (segsText segs) =
      segsOut user repo branch segs :=
  processMDFuel_segs user repo branch segs (segsText segs).length hwf
    (le_refl _)

/-- Witness for C5 at the spec's concrete inputs: for `(alice, repo)` at
ref `main`, the body `![x](img/a.png)![x](https://ext.com/a.png)` rewrites
its relative reference to the raw-content URL and leaves the `https`
reference untouched. -/
theorem claim_C5_witness :
    processMarkdownContent "alice".toList "repo".toList "main".toList
        "![x](img/a.png)![x](https://ext.com/a.png)".toList =
      ("![x](https://raw.githubusercontent.com/alice/repo/main/img/a.png)" ++
        "![x](https://ext.com/a.png)").toList := by
  have h := claim_C5 "alice".toList "repo".toList "main".toList
    [MDSeg.rel "x".toList "img/a.png".toList,
     MDSeg.abs "x".toList "https://ext.com/a.png".toList]
    (by decide)
  have e1 : segsText
      [MDSeg.rel "x".toList "img/a.png".toList,
       MDSeg.abs "x".toList "https://ext.com/a.png".toList] =
      "![x](img/a.png)![x](https://ext.com/a.png)".toList := by decide
  have e2 : segsOut "alice".toList "repo".toList "main".toList
      [MDSeg.rel "x".toList "img/a.png".toList,
       MDSeg.abs "x".toList "https://ext.com/a.png".toList] =
      ("![x](https://raw.githubusercontent.com/alice/repo/main/img/a.png)" ++
        "![x](https://ext.com/a.png)").toList := by decide
  rw [e1, e2] at h
  exact h

/-! ## Claims C6, C7, C8, C10 -/

/-- C6: the probe returns the (trimmed, backtick-stripped) homepage of the
first branch whose manifest decodes with a non-empty homepage field and stops
there; any per-branch fetch/parse failure is swallowed and iteration
continues; exhaustion yields not-found.  Stated as: the iteration equals the
first-match search `findSome?` over branch outcomes, plus the spec's
`[dev, main]` example. -/
theorem claim_C6 :
    (∀ outcomes : List BranchOutcome,
      checkForPackageJsonIter outcomes =
        ((outcomes.findSome? homepageOf).isSome,
          outcomes.findSome? homepageOf)) ∧
    checkForPackageJsonIter
        [BranchOutcome.fetchFailed,
         BranchOutcome.parsed (some "https://demo.example")] =
      (true, some "https://demo.example") := by
  constructor
  · intro outcomes
    induction outcomes with
    | nil => rfl
    | cons o rest ih =>
      cases o with
      | fetchFailed => simpa [checkForPackageJsonIter, homepageOf] using ih
      | parseFailed => simpa [checkForPackageJsonIter, homepageOf] using ih
      | parsed h =>
        cases h with
        | none => simpa [checkForPackageJsonIter, homepageOf] using ih
        | some s =>
          by_cases hs : s = ""
          · simpa [checkForPackageJsonIter, homepageOf, hs] using ih
          · simp [checkForPackageJsonIter, homepageOf, hs]
  · rfl

/-- C10: the shared error handler always throws an error carrying the numeric
status and status text — on every input, including 401/403 after the stored
credential was cleared and after a prompted token was saved — so on any
non-ok response the repository-listing fetch performs exactly one fetch,
never reaches its recursive retry branch, and its caller observes the thrown
error. -/
theorem claim_C10 :
    (∀ (status : Nat) (statusText : String) (promptResp : Option String)
        (st : TokenState),
      (handleApiError status statusText promptResp st).2 =
        Except.error ⟨status, statusText⟩) ∧
    (∀ (resp : ListResponse) (promptResp : Option String)
        (rest : List (ListResponse × Option String)) (st : TokenState),
      resp.ok = false →
      ∃ st1, fetchUserRepositoriesRun ((resp, promptResp) :: rest) st =
        (st1, FetchResult.thrown ⟨resp.status, resp.statusText⟩, 1)) := by
  have hthrow : ∀ (status : Nat) (statusText : String)
      (promptResp : Option String) (st : TokenState),
      (handleApiError status statusText promptResp st).2 =
        Except.error ⟨status, statusText⟩ := by
    intro status statusText promptResp st
    obtain ⟨env, stored⟩ := st
    by_cases h : (status == 401 || status == 403) = true
    · cases env <;> cases stored <;> cases promptResp <;>
        simp [handleApiError, getGitHubToken, setGitHubToken, Option.orElse, h]
    · simp [handleApiError, h]
  refine ⟨hthrow, ?_⟩
  intro resp promptResp rest st hok
  rcases hh : handleApiError resp.status resp.statusText promptResp st
    with ⟨st1, e⟩
  have he : e = Except.error ⟨resp.status, resp.statusText⟩ := by
    have := hthrow resp.status resp.statusText promptResp st
    rw [hh] at this
    exact this
  subst he
  exact ⟨st1, by simp [fetchUserRepositoriesRun, hok, hh]⟩

/-- Witness for C10 at a concrete input: a single 403 response with a stored
token yields a thrown 403 error after exactly one fetch. -/
theorem claim_C10_witness :
    ∃ st1, fetchUserRepositoriesRun
        [({ ok := false, status := 403, statusText := "Forbidden",
            repos := [] }, none)]
        ⟨none, some "tok"⟩ =
      (st1, FetchResult.thrown ⟨403, "Forbidden"⟩, 1) :=
  claim_C10.2 ⟨false, 403, "Forbidden", []⟩ none [] ⟨none, some "tok"⟩ rfl

/-- C7 counterexample: with a stored (non-environment) credential and a
script of two consecutive 403 responses, the repository-listing fetch clears
the credential but performs exactly **one** fetch — the claimed single retry
(which would make two fetches) never happens, because `handleApiError`
throws unconditionally and the retry branch is dead code. -/
theorem claim_C7_counterexample :
    fetchUserRepositoriesRun
        [({ ok := false, status := 403, statusText := "Forbidden",
            repos := [] }, none),
         ({ ok := false, status := 403, statusText := "Forbidden",
            repos := [] }, none)]
        ⟨none, some "stored-token"⟩ =
      (⟨none, none⟩, FetchResult.thrown ⟨403, "Forbidden"⟩, 1) := by
  rfl

/-- C7 amended: with a stored (non-environment) credential, a 403 response
causes the credential to be cleared (and replaced by a prompted value when
one is supplied) followed by **zero** retries: the listing fetch performs
exactly one fetch and terminates with the thrown 403 error, so the caller
observes a terminal failure and no unbounded retry loop. -/
theorem claim_C7 (tok : String) (resp : ListResponse)
    (promptResp : Option String)
    (rest : List (ListResponse × Option String))
    (hok : resp.ok = false) (hstatus : resp.status = 403) :
    fetchUserRepositoriesRun ((resp, promptResp) :: rest) ⟨none, some tok⟩ =
      ({ env := none, stored := promptResp },
        FetchResult.thrown ⟨403, resp.statusText⟩, 1) := by
  obtain ⟨ok, status, statusText, repos⟩ := resp
  dsimp only at hok hstatus ⊢
  subst hok
  subst hstatus
  cases promptResp <;>
    simp [fetchUserRepositoriesRun, handleApiError, getGitHubToken,
      setGitHubToken, Option.orElse]

/-- Witness for C7 (amended) at a concrete input: one 403 response, stored
token `"t"`, no prompt reply — the token ends cleared and the fetch count
is 1. -/
theorem claim_C7_witness :
    fetchUserRepositoriesRun
        [({ ok := false, status := 403, statusText := "Forbidden",
            repos := [] }, none)]
        ⟨none, some "t"⟩ =
      ({ env := none, stored := none },
        FetchResult.thrown ⟨403, "Forbidden"⟩, 1) :=
  claim_C7 "t" ⟨false, 403, "Forbidden", []⟩ none [] rfl rfl

/-- C8 counterexample: with both an environment token and a persisted token
present, a 403 still clears the persisted credential — contradicting the
claim that it is cleared *only when no environment override exists*. -/
theorem claim_C8_counterexample :
    (handleApiError 403 "Forbidden" none
        ⟨some "envtok", some "storedtok"⟩).1 =
      ⟨some "envtok", none⟩ := by
  rfl

/-- C8 amended: on a 401/403 the persisted credential is cleared whenever
*any* credential (environment or persisted) exists — afterwards it holds the
prompted value when the prompt path ran and supplied one, and `none`
otherwise; the environment value itself is never overwritten or cleared
(`getToken` prefers it; `setToken` and the handler mutate persisted storage
only). -/
theorem claim_C8 :
    (∀ (status : Nat) (statusText : String) (promptResp : Option String)
        (st : TokenState),
      (handleApiError status statusText promptResp st).1.env = st.env) ∧
    (∀ (t : String) (st : TokenState), (setGitHubToken t st).env = st.env) ∧
    (∀ (st : TokenState) (e : String), st.env = some e →
      getGitHubToken st = some e) ∧
    (∀ (status : Nat) (statusText : String) (promptResp : Option String)
        (st : TokenState),
      (status = 401 ∨ status = 403) → (getGitHubToken st).isSome →
      (handleApiError status statusText promptResp st).1.stored =
        if st.env.isSome then none else promptResp) := by
  refine ⟨?_, ?_, ?_, ?_⟩
  · intro status statusText promptResp st
    obtain ⟨env, stored⟩ := st
    by_cases h : (status == 401 || status == 403) = true
    · cases env <;> cases stored <;> cases promptResp <;>
        simp [handleApiError, getGitHubToken, setGitHubToken, Option.orElse, h]
    · simp [handleApiError, h]
  · intro t st
    rfl
  · intro st e he
    simp [getGitHubToken, he, Option.orElse]
  · intro status statusText promptResp st hstatus hsome
    have h : (status == 401 || status == 403) = true := by
      rcases hstatus with h | h <;> simp [h]
    obtain ⟨env, stored⟩ := st
    cases env <;> cases stored <;> cases promptResp <;>
      simp_all [handleApiError, getGitHubToken, setGitHubToken, Option.orElse]

/-- Witness for C8 (amended) at a concrete input: env and persisted tokens
both present, a 403 clears the persisted one despite the environment
override. -/
theorem claim_C8_witness :
    (handleApiError 403 "F" none ⟨some "e", some "s"⟩).1.stored = none := by
  simpa using
    (claim_C8.2.2.2 403 "F" none ⟨some "e", some "s"⟩ (Or.inr rfl) rfl)

end RepoViewer
